import Mathlib

/-!
Verification of the deep-equality-gated effect trigger from
`src/hooks/utility/useDeepCompareEffect.ts`.

The embedding models JavaScript runtime values reachable through a
dependency list as an inductive type `Value`: the two absence values
(`undefined` and `null`), the primitives (numbers, strings, booleans),
and the two composite kinds (arrays and plain objects).  Numbers are
modelled as integers in `Value`; the IEEE-754 NaN primitive, whose
strict equality is irreflexive (`NaN === NaN` is false), is modelled
separately by the extended type `NValue` below with its own
branch-by-branch translation `deepEqualN` of the same source function,
which exhibits the failure of reflexivity at NaN and recovers it for
NaN-free values.  Object identity (pointer equality) is not
representable in a structural model, so the `===` shortcut of the
source is modelled as reference inequality (`false`) on two composite
operands; for acyclic values this does not change any verdict of
`deepEqual`, because the structural recursion returns `true` on a value
compared with itself anyway (`deepEqual_refl` below).

`deepEqual` translates the comparison function at lines 6-28 of the
source branch by branch, and `evaluate` translates the gating logic of
`useDeepCompareEffect` at lines 57-65 (one render pass: the `!deps ||
!deepEqual(deps, ref.current)` test, the wholesale snapshot replacement
and the generation bump that forces the effect to re-run).
-/

set_option linter.unusedVariables false

namespace KalkiHooks

/-- JavaScript values reachable through a dependency list. -/
inductive Value where
  | undef : Value
  | null : Value
  | num : Int → Value
  | str : String → Value
  | boolean : Bool → Value
  | arr : List Value → Value
  | obj : List (String × Value) → Value

/-- The result kinds of the JavaScript `typeof` operator on `Value`. -/
inductive JSType where
  | undefinedType | objectType | numberType | stringType | booleanType
deriving DecidableEq

/-- `typeof v` (note that `typeof null` is `"object"` in JavaScript). -/
def typeOf : Value → JSType
  | .undef => .undefinedType
  | .null => .objectType
  | .num _ => .numberType
  | .str _ => .stringType
  | .boolean _ => .booleanType
  | .arr _ => .objectType
  | .obj _ => .objectType

/-- `v == null` in JavaScript: true exactly on `null` and `undefined`. -/
def isNullish : Value → Bool
  | .undef => true
  | .null => true
  | _ => false

/-- Strict equality `a === b`.  Primitives compare by value; `null` and
`undefined` are each equal only to themselves.  Two composite operands
denote distinct allocations in the structural model, so `===` is
reference inequality (`false`) on them. -/
def jsStrictEq : Value → Value → Bool
  | .undef, .undef => true
  | .null, .null => true
  | .num m, .num n => m == n
  | .str s, .str t => s == t
  | .boolean x, .boolean y => x == y
  | _, _ => false

/-- `Array.isArray`. -/
def isArrayValue : Value → Bool
  | .arr _ => true
  | _ => false

/-- A composite (object-typed, non-null) value: an array or a plain object. -/
def isComposite : Value → Bool
  | .arr _ => true
  | .obj _ => true
  | _ => false

/-- A primitive (non-absence, non-composite) value. -/
def isPrimitive : Value → Bool
  | .num _ => true
  | .str _ => true
  | .boolean _ => true
  | _ => false

/-- The own enumerable properties of a dense array: each element under
its decimal index string, in index order. -/
def arrayEntries (i : Nat) : List Value → List (String × Value)
  | [] => []
  | v :: vs => (toString i, v) :: arrayEntries (i + 1) vs

/-- The own enumerable `(key, value)` properties of a value. -/
def jsEntries : Value → List (String × Value)
  | .arr xs => arrayEntries 0 xs
  | .obj ps => ps
  | _ => []

/-- `Object.keys(v)`. -/
def jsKeys (v : Value) : List String := (jsEntries v).map Prod.fst

/-- First entry of an association list under a given key. -/
def getEntry : List (String × Value) → String → Option Value
  | [], _ => none
  | (k, v) :: rest, key => if k = key then some v else getEntry rest key

/-- Property access `v[key]`: the stored value, or `undefined` when the
key is absent. -/
def jsGet (v : Value) (key : String) : Value :=
  (getEntry (jsEntries v) key).getD .undef

theorem getEntry_mem {l : List (String × Value)} {key : String} {v : Value}
    (h : getEntry l key = some v) : (key, v) ∈ l := by
  induction l with
  | nil => simp [getEntry] at h
  | cons p rest ih =>
    obtain ⟨k, w⟩ := p
    by_cases hk : k = key
    · simp [getEntry, hk] at h
      simp [hk, h]
    · simp [getEntry, hk] at h
      exact List.mem_cons_of_mem _ (ih h)

theorem mem_arrayEntries_snd {xs : List Value} {p : String × Value} :
    ∀ {i : Nat}, p ∈ arrayEntries i xs → p.2 ∈ xs := by
  induction xs with
  | nil => intro i h; simp [arrayEntries] at h
  | cons v vs ih =>
    intro i h
    simp only [arrayEntries, List.mem_cons] at h
    rcases h with h | h
    · simp [h]
    · exact List.mem_cons_of_mem _ (ih h)

theorem sizeOf_pos (v : Value) : 0 < sizeOf v := by
  cases v <;> simp

theorem list_sizeOf_pos {α : Type} [SizeOf α] (l : List α) : 0 < sizeOf l := by
  cases l <;> simp

theorem jsGet_sizeOf_lt {a : Value} (h : isComposite a = true) (key : String) :
    sizeOf (jsGet a key) < sizeOf a := by
  cases a with
  | arr xs =>
    have hxs : 0 < sizeOf xs := list_sizeOf_pos xs
    simp only [jsGet, jsEntries]
    cases hE : getEntry (arrayEntries 0 xs) key with
    | none => simp; omega
    | some v =>
      have hv : v ∈ xs := mem_arrayEntries_snd (getEntry_mem hE)
      have := List.sizeOf_lt_of_mem hv
      simp; omega
  | obj ps =>
    have hps : 0 < sizeOf ps := list_sizeOf_pos ps
    simp only [jsGet, jsEntries]
    cases hE : getEntry ps key with
    | none => simp; omega
    | some v =>
      have hv : (key, v) ∈ ps := getEntry_mem hE
      have h1 := List.sizeOf_lt_of_mem hv
      have h2 : sizeOf v < sizeOf (key, v) := by simp
      simp; omega
  | undef => simp [isComposite] at h
  | null => simp [isComposite] at h
  | num n => simp [isComposite] at h
  | str s => simp [isComposite] at h
  | boolean b => simp [isComposite] at h

theorem isComposite_of_object_not_nullish {a : Value}
    (h1 : typeOf a = JSType.objectType) (h2 : isNullish a = false) :
    isComposite a = true := by
  cases a <;> simp_all [typeOf, isNullish, isComposite]

/-- `deepEqual(a, b)` from lines 6-28 of the source, branch by branch:
the `===` shortcut, the null check (`a == null || b == null` returns
`a === b`, so `null` vs `undefined` is `false`), the `typeof` mismatch,
the primitive fallback, the `Array.isArray` mismatch, the key-count
check, and the key loop (`keysB.includes(key)` and the recursive
member comparison, with the loop's early `return false` captured by
the short-circuiting `List.all`). -/
def deepEqual (a b : Value) : Bool :=
  if jsStrictEq a b then true
  else if hn : isNullish a || isNullish b then jsStrictEq a b
  else if typeOf a ≠ typeOf b then false
  else if ho : typeOf a ≠ JSType.objectType then jsStrictEq a b
  else if isArrayValue a ≠ isArrayValue b then false
  else if (jsKeys a).length ≠ (jsKeys b).length then false
  else (jsKeys a).all fun k =>
    if k ∈ jsKeys b then deepEqual (jsGet a k) (jsGet b k) else false
termination_by sizeOf a
decreasing_by
  have h1 : typeOf a = JSType.objectType := not_not.mp ho
  have h2 : isNullish a = false := by
    rw [Bool.or_eq_true] at hn
    exact Bool.eq_false_iff.mpr fun hx => hn (Or.inl hx)
  exact jsGet_sizeOf_lt (isComposite_of_object_not_nullish h1 h2) k

/-- State owned by one trigger instance: `ref` (the dependency snapshot,
initially `undefined`) and `signalRef` (the generation counter). -/
structure TriggerState where
  snapshot : Option (List Value)
  generation : Nat

/-- The value held by `deps` / `ref.current`: a dependency list, or
`undefined` when none was supplied. -/
def depsValue : Option (List Value) → Value
  | none => .undef
  | some l => .arr l

/-- The trigger state of a freshly mounted instance. -/
def initialState : TriggerState := ⟨none, 0⟩

/-- One render pass of `useDeepCompareEffect` (lines 60-63): if `!deps
|| !deepEqual(deps, ref.current)` then the snapshot is replaced
wholesale by `deps`, the generation is bumped, and the effect fires;
otherwise nothing changes and the effect is suppressed. -/
def evaluate (deps : Option (List Value)) (s : TriggerState) : Bool × TriggerState :=
  if deps.isNone || !deepEqual (depsValue deps) (depsValue s.snapshot) then
    (true, { snapshot := deps, generation := s.generation + 1 })
  else
    (false, s)

/-- Run the trigger over a sequence of render passes. -/
def runTrigger (s : TriggerState) : List (Option (List Value)) → TriggerState
  | [] => s
  | d :: ds => runTrigger (evaluate d s).2 ds

/-- The dependency values of the passes in which the trigger fired, in
order. -/
def firedInputs (s : TriggerState) : List (Option (List Value)) → List (Option (List Value))
  | [] => []
  | d :: ds =>
    (if (evaluate d s).1 then [d] else []) ++ firedInputs (evaluate d s).2 ds

/-- Well-formed values: every object node, anywhere in the value, has
pairwise-distinct keys — exactly the values denotable by a JavaScript
object graph, where a property name occurs at most once per object. -/
inductive WF : Value → Prop where
  | undef : WF .undef
  | null : WF .null
  | num (n : Int) : WF (.num n)
  | str (s : String) : WF (.str s)
  | boolean (b : Bool) : WF (.boolean b)
  | arr (xs : List Value) : (∀ v ∈ xs, WF v) → WF (.arr xs)
  | obj (ps : List (String × Value)) : (ps.map Prod.fst).Nodup →
      (∀ p ∈ ps, WF p.2) → WF (.obj ps)

/-- The key loop of `deepEqual`, instrumented with a recursion-depth
budget: `none` means the budget was exhausted. -/
def keysAllFuel (f : Value → Value → Option Bool) (a b : Value) :
    List String → Option Bool
  | [] => some true
  | k :: rest =>
    if k ∈ jsKeys b then
      match f (jsGet a k) (jsGet b k) with
      | none => none
      | some true => keysAllFuel f a b rest
      | some false => some false
    else some false

/-- `deepEqual` instrumented with a recursion-depth budget `n`: returns
`none` (stack exhaustion) when the nesting depth of the recursion
exceeds `n`, and `some` of the comparison verdict otherwise. -/
def deepEqualFuel : Nat → Value → Value → Option Bool
  | 0, _, _ => none
  | n + 1, a, b =>
    if jsStrictEq a b then some true
    else if isNullish a || isNullish b then some (jsStrictEq a b)
    else if typeOf a ≠ typeOf b then some false
    else if typeOf a ≠ JSType.objectType then some (jsStrictEq a b)
    else if isArrayValue a ≠ isArrayValue b then some false
    else if (jsKeys a).length ≠ (jsKeys b).length then some false
    else keysAllFuel (fun x y => deepEqualFuel n x y) a b (jsKeys a)

theorem jsStrictEq_arr_left (xs : List Value) (b : Value) :
    jsStrictEq (.arr xs) b = false := by cases b <;> rfl

theorem jsStrictEq_obj_left (ps : List (String × Value)) (b : Value) :
    jsStrictEq (.obj ps) b = false := by cases b <;> rfl

theorem jsStrictEq_of_composite {a : Value} (h : isComposite a = true) (b : Value) :
    jsStrictEq a b = false := by
  cases a with
  | arr xs => exact jsStrictEq_arr_left xs b
  | obj ps => exact jsStrictEq_obj_left ps b
  | undef => simp [isComposite] at h
  | null => simp [isComposite] at h
  | num n => simp [isComposite] at h
  | str s => simp [isComposite] at h
  | boolean c => simp [isComposite] at h

/-- The defining equation of `deepEqual`, restated with plain
conditionals. -/
theorem deepEqual_unfold (a b : Value) : deepEqual a b =
    (if jsStrictEq a b then true
    else if isNullish a || isNullish b then jsStrictEq a b
    else if typeOf a ≠ typeOf b then false
    else if typeOf a ≠ JSType.objectType then jsStrictEq a b
    else if isArrayValue a ≠ isArrayValue b then false
    else if (jsKeys a).length ≠ (jsKeys b).length then false
    else (jsKeys a).all fun k =>
      if k ∈ jsKeys b then deepEqual (jsGet a k) (jsGet b k) else false) := by
  rw [deepEqual.eq_def]
  simp only [dite_eq_ite]

theorem jsStrictEq_comm (a b : Value) : jsStrictEq a b = jsStrictEq b a := by
  cases a <;> cases b <;> simp [jsStrictEq] <;>
    simp [BEq.comm, eq_comm]

theorem jsStrictEq_typeOf {a b : Value} (h : jsStrictEq a b = true) :
    typeOf a = typeOf b := by
  cases a <;> cases b <;> simp_all [jsStrictEq, typeOf]

theorem isNullish_of_composite {a : Value} (h : isComposite a = true) :
    isNullish a = false := by
  cases a <;> simp_all [isComposite, isNullish]

theorem typeOf_of_composite {a : Value} (h : isComposite a = true) :
    typeOf a = JSType.objectType := by
  cases a <;> simp_all [isComposite, typeOf]

theorem deepEqual_of_strictEq {a b : Value} (h : jsStrictEq a b = true) :
    deepEqual a b = true := by
  rw [deepEqual_unfold, if_pos h]

theorem deepEqual_nullish {a b : Value} (h : (isNullish a || isNullish b) = true) :
    deepEqual a b = jsStrictEq a b := by
  by_cases hs : jsStrictEq a b = true
  · rw [deepEqual_unfold, if_pos hs, hs]
  · rw [deepEqual_unfold, if_neg hs, if_pos h]

theorem deepEqual_typeOf_ne {a b : Value} (h : typeOf a ≠ typeOf b) :
    deepEqual a b = false := by
  have hs : ¬jsStrictEq a b = true := fun hx => h (jsStrictEq_typeOf hx)
  by_cases hn : (isNullish a || isNullish b) = true
  · rw [deepEqual_unfold, if_neg hs, if_pos hn]
    exact Bool.eq_false_iff.mpr hs
  · rw [deepEqual_unfold, if_neg hs, if_neg hn, if_pos h]

theorem deepEqual_primitive {a b : Value} (hn : ¬(isNullish a || isNullish b) = true)
    (ht : typeOf a = typeOf b) (ho : typeOf a ≠ JSType.objectType) :
    deepEqual a b = jsStrictEq a b := by
  by_cases hs : jsStrictEq a b = true
  · rw [deepEqual_unfold, if_pos hs, hs]
  · rw [deepEqual_unfold, if_neg hs, if_neg hn,
      if_neg (not_ne_iff.mpr ht), if_pos ho]

theorem composite_not_nullish {a b : Value} (ha : isComposite a = true)
    (hb : isComposite b = true) : ¬(isNullish a || isNullish b) = true := by
  simp [isNullish_of_composite ha, isNullish_of_composite hb]

theorem deepEqual_array_mismatch {a b : Value} (ha : isComposite a = true)
    (hb : isComposite b = true) (hm : isArrayValue a ≠ isArrayValue b) :
    deepEqual a b = false := by
  have ht : typeOf a = typeOf b := by
    rw [typeOf_of_composite ha, typeOf_of_composite hb]
  rw [deepEqual_unfold,
    if_neg (Bool.eq_false_iff.mp (jsStrictEq_of_composite ha b)),
    if_neg (composite_not_nullish ha hb),
    if_neg (not_ne_iff.mpr ht),
    if_neg (not_ne_iff.mpr (typeOf_of_composite ha)),
    if_pos hm]

/-- The composite branch of `deepEqual`: for two same-kind composite
operands the verdict is `true` exactly when the key lists have the same
length (cardinality), every key of `a` is a key of `b` (containment),
and the members under each key of `a` compare equal recursively. -/
theorem deepEqual_composite_iff {a b : Value} (ha : isComposite a = true)
    (hb : isComposite b = true) (hm : isArrayValue a = isArrayValue b) :
    deepEqual a b = true ↔
      (jsKeys a).length = (jsKeys b).length ∧
      ∀ k ∈ jsKeys a, k ∈ jsKeys b ∧ deepEqual (jsGet a k) (jsGet b k) = true := by
  have ht : typeOf a = typeOf b := by
    rw [typeOf_of_composite ha, typeOf_of_composite hb]
  rw [deepEqual_unfold,
    if_neg (Bool.eq_false_iff.mp (jsStrictEq_of_composite ha b)),
    if_neg (composite_not_nullish ha hb),
    if_neg (not_ne_iff.mpr ht),
    if_neg (not_ne_iff.mpr (typeOf_of_composite ha)),
    if_neg (not_ne_iff.mpr hm)]
  by_cases hl : (jsKeys a).length = (jsKeys b).length
  · rw [if_neg (not_ne_iff.mpr hl)]
    simp only [List.all_eq_true, hl, true_and]
    constructor
    · intro h k hk
      have hx := h k hk
      by_cases hkb : k ∈ jsKeys b
      · rw [if_pos hkb] at hx
        exact ⟨hkb, hx⟩
      · rw [if_neg hkb] at hx
        exact absurd hx (by simp)
    · intro h k hk
      obtain ⟨hkb, hd⟩ := h k hk
      rw [if_pos hkb]
      exact hd
  · rw [if_pos hl]
    simp [hl]

theorem arrayEntries_length (xs : List Value) :
    ∀ i, (arrayEntries i xs).length = xs.length := by
  induction xs with
  | nil => intro i; rfl
  | cons v vs ih => intro i; simp [arrayEntries, ih]

theorem jsKeys_arr_length (xs : List Value) :
    (jsKeys (.arr xs)).length = xs.length := by
  simp [jsKeys, jsEntries, arrayEntries_length]

theorem arrayEntries_map_fst {xs ys : List Value} (h : xs.length = ys.length) :
    ∀ i, (arrayEntries i xs).map Prod.fst = (arrayEntries i ys).map Prod.fst := by
  induction xs generalizing ys with
  | nil =>
    cases ys with
    | nil => intro i; rfl
    | cons w ws => simp at h
  | cons v vs ih =>
    cases ys with
    | nil => simp at h
    | cons w ws =>
      intro i
      simp only [List.length_cons] at h
      have h2 : vs.length = ws.length := by omega
      simp [arrayEntries, ih h2 (i + 1)]

/-- The keys of a dense array are determined by its length alone. -/
theorem jsKeys_arr_eq_of_length {xs ys : List Value} (h : xs.length = ys.length) :
    jsKeys (.arr xs) = jsKeys (.arr ys) :=
  arrayEntries_map_fst h 0

theorem WF_arr_elem {xs : List Value} (h : WF (.arr xs)) {v : Value}
    (hv : v ∈ xs) : WF v := by
  cases h with
  | arr _ hall => exact hall v hv

theorem WF_obj_nodup {ps : List (String × Value)} (h : WF (.obj ps)) :
    (ps.map Prod.fst).Nodup := by
  cases h with
  | obj _ hnd _ => exact hnd

theorem WF_obj_val {ps : List (String × Value)} (h : WF (.obj ps))
    {p : String × Value} (hp : p ∈ ps) : WF p.2 := by
  cases h with
  | obj _ _ hall => exact hall p hp

/-- Well-formedness is preserved by property access. -/
theorem WF_jsGet {a : Value} (h : WF a) (k : String) : WF (jsGet a k) := by
  cases a with
  | arr xs =>
    show WF ((getEntry (jsEntries (.arr xs)) k).getD .undef)
    cases hE : getEntry (jsEntries (.arr xs)) k with
    | none => exact WF.undef
    | some v =>
      have hv : v ∈ xs := mem_arrayEntries_snd (getEntry_mem hE)
      exact WF_arr_elem h hv
  | obj ps =>
    show WF ((getEntry ps k).getD .undef)
    cases hE : getEntry ps k with
    | none => exact WF.undef
    | some v => exact WF_obj_val h (getEntry_mem hE)
  | undef => exact WF.undef
  | null => exact WF.undef
  | num n => exact WF.undef
  | str s => exact WF.undef
  | boolean c => exact WF.undef

theorem eq_arr_of_isArray {a : Value} (h : isArrayValue a = true) :
    ∃ xs, a = .arr xs := by
  cases a <;> simp_all [isArrayValue]

theorem eq_obj_of_composite_not_array {a : Value} (hc : isComposite a = true)
    (h : isArrayValue a = false) : ∃ ps, a = .obj ps := by
  cases a <;> simp_all [isComposite, isArrayValue]

/-- A containment between key lists of equal cardinality, both without
duplicates, is an equality of key sets. -/
theorem nodup_subset_rev {ka kb : List String} (hnda : ka.Nodup) (hndb : kb.Nodup)
    (hl : ka.length = kb.length) (hsub : ∀ k ∈ ka, k ∈ kb) :
    ∀ k ∈ kb, k ∈ ka := by
  have hfin : ka.toFinset = kb.toFinset := by
    apply Finset.eq_of_subset_of_card_le
    · intro k hk
      exact List.mem_toFinset.mpr (hsub k (List.mem_toFinset.mp hk))
    · rw [List.toFinset_card_of_nodup hnda, List.toFinset_card_of_nodup hndb]
      omega
  intro k hk
  exact List.mem_toFinset.mp (hfin ▸ List.mem_toFinset.mpr hk)

theorem deepEqual_true_composite {a b : Value} (hd : deepEqual a b = true)
    (hs : ¬jsStrictEq a b = true) :
    isComposite a = true ∧ isComposite b = true ∧ isArrayValue a = isArrayValue b := by
  by_cases hn : (isNullish a || isNullish b) = true
  · rw [deepEqual_nullish hn] at hd
    exact absurd hd hs
  · by_cases ht : typeOf a = typeOf b
    · by_cases ho : typeOf a = JSType.objectType
      · rw [Bool.or_eq_true] at hn
        have hna : isNullish a = false :=
          Bool.eq_false_iff.mpr fun hx => hn (Or.inl hx)
        have hnb : isNullish b = false :=
          Bool.eq_false_iff.mpr fun hx => hn (Or.inr hx)
        have hca := isComposite_of_object_not_nullish ho hna
        have hcb := isComposite_of_object_not_nullish (ht ▸ ho) hnb
        refine ⟨hca, hcb, ?_⟩
        by_contra hm
        rw [deepEqual_array_mismatch hca hcb hm] at hd
        exact absurd hd (by simp)
      · rw [deepEqual_primitive hn ht ho] at hd
        exact absurd hd hs
    · rw [deepEqual_typeOf_ne ht] at hd
      exact absurd hd (by simp)

theorem deepEqual_symm_bounded :
    ∀ (n : Nat) (a b : Value), sizeOf a + sizeOf b ≤ n → WF a → WF b →
      deepEqual a b = true → deepEqual b a = true := by
  intro n
  induction n with
  | zero =>
    intro a b hab _ _ _
    exact absurd hab (by have := sizeOf_pos a; have := sizeOf_pos b; omega)
  | succ n ih =>
    intro a b hab hwa hwb hd
    by_cases hs : jsStrictEq a b = true
    · exact deepEqual_of_strictEq (jsStrictEq_comm b a ▸ hs)
    · obtain ⟨hca, hcb, hm⟩ := deepEqual_true_composite hd hs
      obtain ⟨hl, hall⟩ := (deepEqual_composite_iff hca hcb hm).mp hd
      have hrev : ∀ k ∈ jsKeys b, k ∈ jsKeys a := by
        by_cases harr : isArrayValue a = true
        · obtain ⟨xs, hax⟩ := eq_arr_of_isArray harr
          obtain ⟨ys, hby⟩ := eq_arr_of_isArray (hm ▸ harr)
          subst hax hby
          have hxy : xs.length = ys.length := by
            rw [← jsKeys_arr_length xs, ← jsKeys_arr_length ys]
            exact hl
          rw [jsKeys_arr_eq_of_length hxy]
          exact fun k hk => hk
        · obtain ⟨ps, hap⟩ := eq_obj_of_composite_not_array hca
            (Bool.eq_false_iff.mpr harr)
          obtain ⟨qs, hbq⟩ := eq_obj_of_composite_not_array hcb
            (Bool.eq_false_iff.mpr (by rw [← hm]; exact harr))
          subst hap hbq
          exact nodup_subset_rev (WF_obj_nodup hwa) (WF_obj_nodup hwb) hl
            (fun k hk => (hall k hk).1)
      refine (deepEqual_composite_iff hcb hca hm.symm).mpr ⟨hl.symm, fun k hk => ?_⟩
      have hka : k ∈ jsKeys a := hrev k hk
      refine ⟨hka, ?_⟩
      have hsz : sizeOf (jsGet a k) + sizeOf (jsGet b k) ≤ n := by
        have h1 := jsGet_sizeOf_lt hca k
        have h2 := jsGet_sizeOf_lt hcb k
        omega
      exact ih (jsGet a k) (jsGet b k) hsz (WF_jsGet hwa k) (WF_jsGet hwb k)
        (hall k hka).2

theorem deepEqual_symm_mp {a b : Value} (hwa : WF a) (hwb : WF b)
    (hd : deepEqual a b = true) : deepEqual b a = true :=
  deepEqual_symm_bounded (sizeOf a + sizeOf b) a b le_rfl hwa hwb hd

/-- Symmetry of the comparator on well-formed values. -/
theorem deepEqual_symm {a b : Value} (hwa : WF a) (hwb : WF b) :
    deepEqual a b = deepEqual b a := by
  cases hab : deepEqual a b with
  | true => exact (deepEqual_symm_mp hwa hwb hab).symm
  | false =>
    cases hba : deepEqual b a with
    | false => rfl
    | true => rw [← hab, deepEqual_symm_mp hwb hwa hba]

theorem keysAllFuel_eq {f : Value → Value → Option Bool} {a b : Value}
    (hf : ∀ k, f (jsGet a k) (jsGet b k) = some (deepEqual (jsGet a k) (jsGet b k))) :
    ∀ ks : List String, keysAllFuel f a b ks =
      some (ks.all fun k =>
        if k ∈ jsKeys b then deepEqual (jsGet a k) (jsGet b k) else false) := by
  intro ks
  induction ks with
  | nil => rfl
  | cons k rest ih =>
    simp only [keysAllFuel, List.all_cons]
    by_cases hk : k ∈ jsKeys b
    · rw [if_pos hk, if_pos hk, hf k]
      cases hd : deepEqual (jsGet a k) (jsGet b k) with
      | true => simp [ih]
      | false => simp
    · rw [if_neg hk, if_neg hk]
      simp

/-- With a recursion budget at least the structural size of the left
operand, the instrumented comparator completes and agrees with
`deepEqual`: the recursion depth is bounded by the structure of the
inputs, so no explicit depth bound is needed. -/
theorem deepEqualFuel_eq :
    ∀ (n : Nat) (a b : Value), sizeOf a ≤ n →
      deepEqualFuel n a b = some (deepEqual a b) := by
  intro n
  induction n with
  | zero =>
    intro a b ha
    exact absurd ha (by have := sizeOf_pos a; omega)
  | succ n ih =>
    intro a b ha
    rw [show deepEqual a b = _ from deepEqual_unfold a b]
    simp only [deepEqualFuel]
    split_ifs with h1 h2 h3 h4 h5 h6
    · rfl
    · rfl
    · rfl
    · rfl
    · rfl
    · rfl
    · apply keysAllFuel_eq
      intro k
      have hna : isNullish a = false := by
        rw [Bool.or_eq_true] at h2
        exact Bool.eq_false_iff.mpr fun hx => h2 (Or.inl hx)
      have hca : isComposite a = true :=
        isComposite_of_object_not_nullish (not_not.mp h4) hna
      exact ih (jsGet a k) (jsGet b k)
        (by have := jsGet_sizeOf_lt hca k; omega)

theorem evaluate_cond_true {deps : Option (List Value)} {s : TriggerState}
    (hc : (deps.isNone || !deepEqual (depsValue deps) (depsValue s.snapshot)) = true) :
    evaluate deps s = (true, { snapshot := deps, generation := s.generation + 1 }) := by
  rw [evaluate, if_pos hc]

theorem evaluate_cond_false {deps : Option (List Value)} {s : TriggerState}
    (hc : ¬(deps.isNone || !deepEqual (depsValue deps) (depsValue s.snapshot)) = true) :
    evaluate deps s = (false, s) := by
  rw [evaluate, if_neg hc]

/-- The gate condition, spelled as a proposition: the effect fires
exactly when no dependency list was supplied or the comparison with
the snapshot reports a difference. -/
theorem evaluate_fires_iff (deps : Option (List Value)) (s : TriggerState) :
    (evaluate deps s).1 = true ↔
      deps = none ∨ deepEqual (depsValue deps) (depsValue s.snapshot) = false := by
  by_cases hc : (deps.isNone || !deepEqual (depsValue deps) (depsValue s.snapshot)) = true
  · rw [evaluate_cond_true hc]
    simp only [true_iff]
    rw [Bool.or_eq_true] at hc
    rcases hc with h | h
    · exact Or.inl (Option.isNone_iff_eq_none.mp h)
    · exact Or.inr (by simpa using h)
  · rw [evaluate_cond_false hc]
    simp only [Bool.false_eq_true, false_iff]
    rw [Bool.or_eq_true, not_or] at hc
    obtain ⟨h1, h2⟩ := hc
    rintro (h | h)
    · exact h1 (by simp [h])
    · exact h2 (by simp [h])

theorem evaluate_fired_state {deps : Option (List Value)} {s : TriggerState}
    (h : (evaluate deps s).1 = true) :
    (evaluate deps s).2 = { snapshot := deps, generation := s.generation + 1 } := by
  by_cases hc : (deps.isNone || !deepEqual (depsValue deps) (depsValue s.snapshot)) = true
  · rw [evaluate_cond_true hc]
  · rw [evaluate_cond_false hc] at h
    exact absurd h (by simp)

theorem evaluate_not_fired_state {deps : Option (List Value)} {s : TriggerState}
    (h : (evaluate deps s).1 = false) : (evaluate deps s).2 = s := by
  by_cases hc : (deps.isNone || !deepEqual (depsValue deps) (depsValue s.snapshot)) = true
  · rw [evaluate_cond_true hc] at h
    exact absurd h (by simp)
  · rw [evaluate_cond_false hc]

theorem getLast_getD_cons {α : Type} :
    ∀ (rest : List α) (d y : α),
      ((d :: rest).getLast?).getD y = (rest.getLast?).getD d := by
  intro rest
  induction rest with
  | nil => intro d y; rfl
  | cons r rs ih =>
    intro d y
    rw [List.getLast?_cons_cons, ih r y, ih r d]

/-- Across any sequence of render passes, the snapshot of the final
state is the dependency value of the last pass in which the trigger
fired, or the initial snapshot when no pass fired. -/
theorem snapshot_eq_last_fired :
    ∀ (ds : List (Option (List Value))) (s : TriggerState),
      (runTrigger s ds).snapshot = ((firedInputs s ds).getLast?).getD s.snapshot := by
  intro ds
  induction ds with
  | nil => intro s; rfl
  | cons d rest ih =>
    intro s
    simp only [runTrigger, firedInputs]
    cases hf : (evaluate d s).1 with
    | true =>
      rw [if_pos rfl, evaluate_fired_state hf, ih, List.singleton_append,
        getLast_getD_cons]
    | false =>
      rw [if_neg (by simp), evaluate_not_fired_state hf, ih,
        List.nil_append]

theorem typeOf_primitive_ne_object {b : Value} (h : isPrimitive b = true) :
    typeOf b ≠ JSType.objectType := by
  cases b <;> simp_all [isPrimitive, typeOf]

/-- The value model extended with the IEEE-754 NaN primitive.  JS
numbers are doubles, and `NaN` is a number (`typeof NaN` is
`"number"`) whose strict equality is irreflexive: `NaN === NaN` is
false.  Every other constructor is as in `Value`. -/
inductive NValue where
  | undef : NValue
  | null : NValue
  | num : Int → NValue
  | nan : NValue
  | str : String → NValue
  | boolean : Bool → NValue
  | arr : List NValue → NValue
  | obj : List (String × NValue) → NValue

/-- `typeof v` on the extended model (`typeof NaN` is `"number"`). -/
def typeOfN : NValue → JSType
  | .undef => .undefinedType
  | .null => .objectType
  | .num _ => .numberType
  | .nan => .numberType
  | .str _ => .stringType
  | .boolean _ => .booleanType
  | .arr _ => .objectType
  | .obj _ => .objectType

/-- `v == null` on the extended model (`NaN == null` is false). -/
def isNullishN : NValue → Bool
  | .undef => true
  | .null => true
  | _ => false

/-- Strict equality `a === b` on the extended model: `NaN` compares
false against everything, itself included; the rest is as in
`jsStrictEq`. -/
def jsStrictEqN : NValue → NValue → Bool
  | .nan, _ => false
  | _, .nan => false
  | .undef, .undef => true
  | .null, .null => true
  | .num m, .num n => m == n
  | .str s, .str t => s == t
  | .boolean x, .boolean y => x == y
  | _, _ => false

/-- `Array.isArray` on the extended model. -/
def isArrayValueN : NValue → Bool
  | .arr _ => true
  | _ => false

/-- Composite values of the extended model. -/
def isCompositeN : NValue → Bool
  | .arr _ => true
  | .obj _ => true
  | _ => false

/-- Dense-array properties of the extended model. -/
def arrayEntriesN (i : Nat) : List NValue → List (String × NValue)
  | [] => []
  | v :: vs => (toString i, v) :: arrayEntriesN (i + 1) vs

/-- Own enumerable properties on the extended model. -/
def jsEntriesN : NValue → List (String × NValue)
  | .arr xs => arrayEntriesN 0 xs
  | .obj ps => ps
  | _ => []

/-- `Object.keys(v)` on the extended model. -/
def jsKeysN (v : NValue) : List String := (jsEntriesN v).map Prod.fst

/-- First entry of an association list under a given key. -/
def getEntryN : List (String × NValue) → String → Option NValue
  | [], _ => none
  | (k, v) :: rest, key => if k = key then some v else getEntryN rest key

/-- Property access `v[key]` on the extended model. -/
def jsGetN (v : NValue) (key : String) : NValue :=
  (getEntryN (jsEntriesN v) key).getD .undef

theorem getEntryN_mem {l : List (String × NValue)} {key : String} {v : NValue}
    (h : getEntryN l key = some v) : (key, v) ∈ l := by
  induction l with
  | nil => simp [getEntryN] at h
  | cons p rest ih =>
    obtain ⟨k, w⟩ := p
    by_cases hk : k = key
    · simp [getEntryN, hk] at h
      simp [hk, h]
    · simp [getEntryN, hk] at h
      exact List.mem_cons_of_mem _ (ih h)

theorem mem_arrayEntriesN_snd {xs : List NValue} {p : String × NValue} :
    ∀ {i : Nat}, p ∈ arrayEntriesN i xs → p.2 ∈ xs := by
  induction xs with
  | nil => intro i h; simp [arrayEntriesN] at h
  | cons v vs ih =>
    intro i h
    simp only [arrayEntriesN, List.mem_cons] at h
    rcases h with h | h
    · simp [h]
    · exact List.mem_cons_of_mem _ (ih h)

theorem sizeOfN_pos (v : NValue) : 0 < sizeOf v := by
  cases v <;> simp

theorem jsGetN_sizeOf_lt {a : NValue} (h : isCompositeN a = true) (key : String) :
    sizeOf (jsGetN a key) < sizeOf a := by
  cases a with
  | arr xs =>
    have hxs : 0 < sizeOf xs := list_sizeOf_pos xs
    simp only [jsGetN, jsEntriesN]
    cases hE : getEntryN (arrayEntriesN 0 xs) key with
    | none => simp; omega
    | some v =>
      have hv : v ∈ xs := mem_arrayEntriesN_snd (getEntryN_mem hE)
      have := List.sizeOf_lt_of_mem hv
      simp; omega
  | obj ps =>
    have hps : 0 < sizeOf ps := list_sizeOf_pos ps
    simp only [jsGetN, jsEntriesN]
    cases hE : getEntryN ps key with
    | none => simp; omega
    | some v =>
      have hv : (key, v) ∈ ps := getEntryN_mem hE
      have h1 := List.sizeOf_lt_of_mem hv
      have h2 : sizeOf v < sizeOf (key, v) := by simp
      simp; omega
  | undef => simp [isCompositeN] at h
  | null => simp [isCompositeN] at h
  | num n => simp [isCompositeN] at h
  | nan => simp [isCompositeN] at h
  | str s => simp [isCompositeN] at h
  | boolean b => simp [isCompositeN] at h

theorem isCompositeN_of_object_not_nullish {a : NValue}
    (h1 : typeOfN a = JSType.objectType) (h2 : isNullishN a = false) :
    isCompositeN a = true := by
  cases a <;> simp_all [typeOfN, isNullishN, isCompositeN]

/-- `deepEqual(a, b)` from lines 6-28 of the source, translated branch
by branch over the NaN-extended value model, exactly as `deepEqual` is
over `Value`. -/
def deepEqualN (a b : NValue) : Bool :=
  if jsStrictEqN a b then true
  else if hn : isNullishN a || isNullishN b then jsStrictEqN a b
  else if typeOfN a ≠ typeOfN b then false
  else if ho : typeOfN a ≠ JSType.objectType then jsStrictEqN a b
  else if isArrayValueN a ≠ isArrayValueN b then false
  else if (jsKeysN a).length ≠ (jsKeysN b).length then false
  else (jsKeysN a).all fun k =>
    if k ∈ jsKeysN b then deepEqualN (jsGetN a k) (jsGetN b k) else false
termination_by sizeOf a
decreasing_by
  have h1 : typeOfN a = JSType.objectType := not_not.mp ho
  have h2 : isNullishN a = false := by
    rw [Bool.or_eq_true] at hn
    exact Bool.eq_false_iff.mpr fun hx => hn (Or.inl hx)
  exact jsGetN_sizeOf_lt (isCompositeN_of_object_not_nullish h1 h2) k

/-- Values of the extended model that do not contain the NaN primitive
anywhere. -/
inductive NaNFree : NValue → Prop where
  | undef : NaNFree .undef
  | null : NaNFree .null
  | num (n : Int) : NaNFree (.num n)
  | str (s : String) : NaNFree (.str s)
  | boolean (b : Bool) : NaNFree (.boolean b)
  | arr (xs : List NValue) : (∀ v ∈ xs, NaNFree v) → NaNFree (.arr xs)
  | obj (ps : List (String × NValue)) : (∀ p ∈ ps, NaNFree p.2) →
      NaNFree (.obj ps)

/-- The defining equation of `deepEqualN`, restated with plain
conditionals. -/
theorem deepEqualN_unfold (a b : NValue) : deepEqualN a b =
    (if jsStrictEqN a b then true
    else if isNullishN a || isNullishN b then jsStrictEqN a b
    else if typeOfN a ≠ typeOfN b then false
    else if typeOfN a ≠ JSType.objectType then jsStrictEqN a b
    else if isArrayValueN a ≠ isArrayValueN b then false
    else if (jsKeysN a).length ≠ (jsKeysN b).length then false
    else (jsKeysN a).all fun k =>
      if k ∈ jsKeysN b then deepEqualN (jsGetN a k) (jsGetN b k) else false) := by
  rw [deepEqualN.eq_def]
  simp only [dite_eq_ite]

theorem jsStrictEqN_of_composite {a : NValue} (h : isCompositeN a = true)
    (b : NValue) : jsStrictEqN a b = false := by
  cases a with
  | arr xs => cases b <;> rfl
  | obj ps => cases b <;> rfl
  | undef => simp [isCompositeN] at h
  | null => simp [isCompositeN] at h
  | num n => simp [isCompositeN] at h
  | nan => simp [isCompositeN] at h
  | str s => simp [isCompositeN] at h
  | boolean c => simp [isCompositeN] at h

theorem isNullishN_of_composite {a : NValue} (h : isCompositeN a = true) :
    isNullishN a = false := by
  cases a <;> simp_all [isCompositeN, isNullishN]

theorem typeOfN_of_composite {a : NValue} (h : isCompositeN a = true) :
    typeOfN a = JSType.objectType := by
  cases a <;> simp_all [isCompositeN, typeOfN]

theorem deepEqualN_of_strictEq {a b : NValue} (h : jsStrictEqN a b = true) :
    deepEqualN a b = true := by
  rw [deepEqualN_unfold, if_pos h]

/-- The positive direction of the composite branch of `deepEqualN`. -/
theorem deepEqualN_composite_mpr {a b : NValue} (ha : isCompositeN a = true)
    (hb : isCompositeN b = true) (hm : isArrayValueN a = isArrayValueN b)
    (hl : (jsKeysN a).length = (jsKeysN b).length)
    (hall : ∀ k ∈ jsKeysN a, k ∈ jsKeysN b ∧
      deepEqualN (jsGetN a k) (jsGetN b k) = true) :
    deepEqualN a b = true := by
  have ht : typeOfN a = typeOfN b := by
    rw [typeOfN_of_composite ha, typeOfN_of_composite hb]
  rw [deepEqualN_unfold,
    if_neg (Bool.eq_false_iff.mp (jsStrictEqN_of_composite ha b)),
    if_neg (by simp [isNullishN_of_composite ha, isNullishN_of_composite hb]),
    if_neg (not_ne_iff.mpr ht),
    if_neg (not_ne_iff.mpr (typeOfN_of_composite ha)),
    if_neg (not_ne_iff.mpr hm),
    if_neg (not_ne_iff.mpr hl)]
  rw [List.all_eq_true]
  intro k hk
  obtain ⟨hkb, hd⟩ := hall k hk
  rw [if_pos hkb]
  exact hd

theorem jsStrictEqN_refl {x : NValue} (hnf : NaNFree x)
    (h : isCompositeN x = false) : jsStrictEqN x x = true := by
  cases hnf <;> simp_all [isCompositeN, jsStrictEqN]

/-- NaN-freedom is preserved by property access. -/
theorem NaNFree_jsGetN {a : NValue} (h : NaNFree a) (k : String) :
    NaNFree (jsGetN a k) := by
  cases a with
  | arr xs =>
    show NaNFree ((getEntryN (jsEntriesN (.arr xs)) k).getD .undef)
    cases hE : getEntryN (jsEntriesN (.arr xs)) k with
    | none => exact NaNFree.undef
    | some v =>
      have hv : v ∈ xs := mem_arrayEntriesN_snd (getEntryN_mem hE)
      cases h with
      | arr _ hall => exact hall v hv
  | obj ps =>
    show NaNFree ((getEntryN ps k).getD .undef)
    cases hE : getEntryN ps k with
    | none => exact NaNFree.undef
    | some v =>
      cases h with
      | obj _ hall => exact hall _ (getEntryN_mem hE)
  | undef => exact NaNFree.undef
  | null => exact NaNFree.undef
  | num n => exact NaNFree.undef
  | nan => exact NaNFree.undef
  | str s => exact NaNFree.undef
  | boolean c => exact NaNFree.undef

theorem deepEqualN_refl_bounded :
    ∀ (n : Nat) (x : NValue), sizeOf x ≤ n → NaNFree x →
      deepEqualN x x = true := by
  intro n
  induction n with
  | zero =>
    intro x hx _
    exact absurd hx (by have := sizeOfN_pos x; omega)
  | succ n ih =>
    intro x hx hnf
    by_cases hc : isCompositeN x = true
    · refine deepEqualN_composite_mpr hc hc rfl rfl fun k hk => ⟨hk, ?_⟩
      exact ih (jsGetN x k) (by have := jsGetN_sizeOf_lt hc k; omega)
        (NaNFree_jsGetN hnf k)
    · exact deepEqualN_of_strictEq (jsStrictEqN_refl hnf (Bool.eq_false_iff.mpr hc))

/-- C1: every `evaluate(currentDeps)` call fires, replaces the snapshot
with `currentDeps` and increments the generation by one exactly when
`currentDeps` is absent or `deepEqual(currentDeps, snapshot)` is false;
otherwise it returns fires = false and leaves the state unchanged, and
an absent dependency list always fires. -/
theorem claim_c1_evaluate_gate :
    ∀ (deps : Option (List Value)) (s : TriggerState),
      ((evaluate deps s).1 = true ↔
        deps = none ∨ deepEqual (depsValue deps) (depsValue s.snapshot) = false)
      ∧ ((evaluate deps s).1 = true →
          (evaluate deps s).2 = { snapshot := deps, generation := s.generation + 1 })
      ∧ ((evaluate deps s).1 = false → (evaluate deps s).2 = s)
      ∧ (evaluate none s).1 = true := by
  intro deps s
  exact ⟨evaluate_fires_iff deps s, evaluate_fired_state, evaluate_not_fired_state,
    (evaluate_fires_iff none s).mpr (Or.inl rfl)⟩

/-- Witness for C1 at a concrete input: the first evaluation of
`[1]` on a fresh instance fires and stores the list, at generation 1. -/
theorem claim_c1_evaluate_gate_witness :
    (evaluate (some [Value.num 1]) initialState).2
      = { snapshot := some [Value.num 1], generation := 1 } :=
  (claim_c1_evaluate_gate (some [Value.num 1]) initialState).2.1
    ((claim_c1_evaluate_gate (some [Value.num 1]) initialState).1.mpr
      (Or.inr (by simp [deepEqual_nullish, depsValue, initialState, isNullish, jsStrictEq])))

/-- Counterexample to C3 as stated: `deepEqual(null, undefined)` is
false, because line 9 of the source returns `a === b` and
`null === undefined` is false. -/
theorem claim_c3_null_undefined_counterexample :
    deepEqual .null .undef = false := by
  simp [deepEqual_nullish, isNullish, jsStrictEq]

/-- C3 (amended): with an absence operand the result is true only when
both operands are absence values; each absence value equals itself, but
`null` and `undefined` are not equal to each other, and an absence
value is unequal to `0` and to the empty string. -/
theorem claim_c3_absence_cases :
    (∀ a b : Value, (isNullish a || isNullish b) = true → deepEqual a b = true →
      isNullish a = true ∧ isNullish b = true)
    ∧ deepEqual .null .null = true
    ∧ deepEqual .undef .undef = true
    ∧ deepEqual .null .undef = false
    ∧ deepEqual .undef .null = false
    ∧ deepEqual .null (.num 0) = false
    ∧ deepEqual .undef (.num 0) = false
    ∧ deepEqual .null (.str "") = false
    ∧ deepEqual .undef (.str "") = false := by
  refine ⟨?_, deepEqual_of_strictEq rfl, deepEqual_of_strictEq rfl,
    by simp [deepEqual_nullish, isNullish, jsStrictEq],
    by simp [deepEqual_nullish, isNullish, jsStrictEq],
    by simp [deepEqual_nullish, isNullish, jsStrictEq],
    by simp [deepEqual_nullish, isNullish, jsStrictEq],
    by simp [deepEqual_nullish, isNullish, jsStrictEq],
    by simp [deepEqual_nullish, isNullish, jsStrictEq]⟩
  intro a b hn hd
  rw [deepEqual_nullish hn] at hd
  cases a <;> cases b <;> simp_all [jsStrictEq, isNullish]

/-- Witness for C3 at a concrete input: `deepEqual(null, null)` is true
and indeed both operands are absence values. -/
theorem claim_c3_absence_cases_witness :
    isNullish Value.null = true ∧ isNullish Value.null = true :=
  claim_c3_absence_cases.1 .null .null rfl claim_c3_absence_cases.2.1

/-- Counterexample to C4 as stated: the claim includes every primitive
number, but at the primitive number NaN the comparator is not
reflexive — `deepEqual(NaN, NaN)` reaches line 13 of the source and
returns `NaN === NaN`, which is false. -/
theorem claim_c4_nan_counterexample : deepEqualN .nan .nan = false := by
  rw [deepEqualN_unfold]
  simp [jsStrictEqN, isNullishN, typeOfN]

/-- C4 (amended): the comparator is reflexive on every acyclic value
that does not contain the number NaN; reflexivity fails at NaN and at
any value containing it. -/
theorem claim_c4_reflexive_nanfree :
    ∀ x : NValue, NaNFree x → deepEqualN x x = true :=
  fun x hnf => deepEqualN_refl_bounded (sizeOf x) x le_rfl hnf

/-- Witness for C4 (amended) at a concrete input: a NaN-free nested
value compares equal to itself. -/
theorem claim_c4_reflexive_nanfree_witness :
    deepEqualN (.arr [.num 3]) (.arr [.num 3]) = true :=
  claim_c4_reflexive_nanfree (.arr [.num 3])
    (NaNFree.arr [.num 3] fun v hv => by
      rw [List.mem_singleton.mp hv]
      exact NaNFree.num 3)

/-- C5: the comparator is symmetric on well-formed values. -/
theorem claim_c5_symmetric :
    ∀ a b : Value, WF a → WF b → deepEqual a b = deepEqual b a :=
  fun _ _ hwa hwb => deepEqual_symm hwa hwb

/-- Witness for C5 at a concrete input: an array and a number compare
the same way in both directions. -/
theorem claim_c5_symmetric_witness :
    deepEqual (.arr [.num 1]) (.num 1) = deepEqual (.num 1) (.arr [.num 1]) :=
  claim_c5_symmetric (.arr [.num 1]) (.num 1)
    (WF.arr [.num 1] fun v hv => by
      rw [List.mem_singleton.mp hv]
      exact WF.num 1)
    (WF.num 1)

/-- C6: operands of different runtime kinds are unequal: a composite
never equals a primitive (in either order), same-kind mismatch between
array and non-array composites forces inequality regardless of content,
and an object is unequal to an array with the same number of entries. -/
theorem claim_c6_kind_mismatch :
    (∀ a b : Value, isComposite a = true → isPrimitive b = true →
        deepEqual a b = false ∧ deepEqual b a = false)
    ∧ (∀ a b : Value, isComposite a = true → isComposite b = true →
        isArrayValue a ≠ isArrayValue b → deepEqual a b = false)
    ∧ (∀ (ps : List (String × Value)) (xs : List Value), ps.length = xs.length →
        deepEqual (.obj ps) (.arr xs) = false) := by
  refine ⟨fun a b ha hb => ?_, fun a b ha hb hm => deepEqual_array_mismatch ha hb hm,
    fun ps xs _ => deepEqual_array_mismatch rfl rfl (by simp [isArrayValue])⟩
  have hne : typeOf a ≠ typeOf b := by
    rw [typeOf_of_composite ha]
    exact fun he => typeOf_primitive_ne_object hb he.symm
  exact ⟨deepEqual_typeOf_ne hne, deepEqual_typeOf_ne (Ne.symm hne)⟩

/-- Witness for C6 at a concrete input: an object and an array with one
entry each are unequal. -/
theorem claim_c6_kind_mismatch_witness :
    deepEqual (.obj [("0", .num 1)]) (.arr [.num 1]) = false :=
  claim_c6_kind_mismatch.2.2 [("0", .num 1)] [.num 1] rfl

/-- C7: the comparator is total — with a structurally sized recursion
budget the instrumented comparator always returns a boolean verdict
(never exhausts its budget), and `evaluate` always returns a boolean
fires flag. -/
theorem claim_c7_totality :
    (∀ a b : Value, deepEqualFuel (sizeOf a) a b = some (deepEqual a b))
    ∧ (∀ (deps : Option (List Value)) (s : TriggerState),
        (evaluate deps s).1 = true ∨ (evaluate deps s).1 = false) :=
  ⟨fun a b => deepEqualFuel_eq (sizeOf a) a b le_rfl,
    fun deps s => Bool.eq_false_or_eq_true (evaluate deps s).1⟩

/-- C8: over any sequence of evaluations, the final snapshot is exactly
the dependency value of the most recent evaluation that fired (replaced
wholesale at each firing), or the prior snapshot when none fired. -/
theorem claim_c8_snapshot_invariant :
    ∀ (ds : List (Option (List Value))) (s : TriggerState),
      (runTrigger s ds).snapshot = ((firedInputs s ds).getLast?).getD s.snapshot :=
  snapshot_eq_last_fired

/-- C9: the comparator terminates on every pair of (finite, acyclic)
values: any recursion budget at least the structural size of the left
operand suffices, so the recursion is well-founded on the structure of
the inputs with no explicit depth bound. -/
theorem claim_c9_termination :
    ∀ (a b : Value) (n : Nat), sizeOf a ≤ n →
      deepEqualFuel n a b = some (deepEqual a b) :=
  fun a b n h => deepEqualFuel_eq n a b h

/-- Witness for C9 at a concrete input: budget 10 settles the
comparison of `[1]` with `[1]`. -/
theorem claim_c9_termination_witness :
    deepEqualFuel 10 (.arr [.num 1]) (.arr [.num 1])
      = some (deepEqual (.arr [.num 1]) (.arr [.num 1])) :=
  claim_c9_termination (.arr [.num 1]) (.arr [.num 1]) 10 (by decide)

/-- C10: on a fresh instance (snapshot unset), the first evaluation
fires for every dependency value, the empty list included. -/
theorem claim_c10_first_render_fires :
    ∀ deps : Option (List Value), (evaluate deps initialState).1 = true := by
  intro deps
  apply (evaluate_fires_iff deps initialState).mpr
  cases deps with
  | none => exact Or.inl rfl
  | some l =>
    refine Or.inr ?_
    simp [deepEqual_nullish, depsValue, initialState, isNullish, jsStrictEq_arr_left]

end KalkiHooks
